import Mathlib

/-!
# Verification of the `dro::MPMC_Queue` ring buffer

A shallow embedding of `src/include/dro/mpmc-queue.hpp` (the canonical,
concept-constrained variant of the queue, per the design notes).

Machine integers: every `std::size_t` quantity is modelled as a `Nat`
together with an explicit reduction `% W` where the C++ arithmetic wraps,
with `W = 2 ^ 64` the number of `std::size_t` values.

Concurrency: the queue's operations are verified in their sequential
(single-threaded, sequentially-consistent) semantics: in a run where no
other thread intervenes, the `compare_exchange_strong` in `try_emplace` /
`try_pop` always succeeds when attempted, and the re-read of `head_` /
`tail_` in the failure path always returns the previously observed value.
The retry structure of the `try_emplace` loop itself is modelled
separately (`tryEmplaceLoop`) against an explicit list of observations of
the shared atomics.
-/

set_option autoImplicit false

namespace dro

/-- The number of values of `std::size_t`: `2 ^ 64` (written as a literal
so that `omega` and `decide` handle it directly). -/
abbrev W : Nat := 18446744073709551616

/-- `std::numeric_limits<std::size_t>::max()`. -/
abbrev MAX_SIZE_T : Nat := W - 1

/-- One storage cell of the ring buffer: `Slot<T>` with its payload
`data_` and its generation counter `turn` (a `std::size_t`, kept `< W`
by construction since every store applies `% W`). -/
structure Slot (α : Type) where
  data : α
  turn : Nat
  deriving DecidableEq, Repr

/-- `Slot::assign_value`: stores the (constructed) element into `data_`.
All four C++ overloads (copy / move, direct args) have this effect. -/
def Slot.assign_value {α : Type} (s : Slot α) (v : α) : Slot α :=
  { s with data := v }

/-- `Slot::return_value`: returns `data_` (moving it out when possible);
it performs no store, so the slot itself is untouched. -/
def Slot.return_value {α : Type} (s : Slot α) : α :=
  s.data

/-- `Slot::~Slot`: the destructor body runs `destroy()` (the payload's
destructor, exactly once) iff `turn & 1` is nonzero. `dtorRuns` is the
number of times the payload's destructor runs during teardown of this
slot. -/
def Slot.dtorRuns {α : Type} (s : Slot α) : Nat :=
  if s.turn &&& 1 ≠ 0 then 1 else 0

/-- `dro::MPMC_Queue<T>`: capacity, slot array, and the two position
counters `tail_` and `head_` (each a `std::size_t`, i.e. `< W`). -/
structure MPMC_Queue (α : Type) where
  capacity : Nat
  buffer : List (Slot α)
  tail : Nat
  head : Nat
  deriving DecidableEq, Repr

namespace MPMC_Queue

variable {α : Type}

/-- `MPMC_Queue::turn(index) = index / capacity_` (no wrap: a quotient of
a `size_t` fits in a `size_t`). -/
def turn (q : MPMC_Queue α) (index : Nat) : Nat :=
  index / q.capacity

/-- The constructor `MPMC_Queue(capacity)`. Throwing `std::logic_error`
is modelled as `Except.error` carrying the exception message. `d0` models
the default-constructed payload `T{}` of each slot. (The code allocates
`capacity_ + 1` slots but constructs — and ever uses — only the first
`capacity_`, so the buffer is modelled with `capacity_` slots.) -/
def construct (capacity : Nat) (d0 : α) : Except String (MPMC_Queue α) :=
  if capacity < 1 then
    Except.error "Capacity must be positive"
  else
    let cap := if capacity = MAX_SIZE_T then MAX_SIZE_T - 1 else capacity
    Except.ok { capacity := cap
                buffer := List.replicate cap { data := d0, turn := 0 }
                tail := 0
                head := 0 }

/-- `MPMC_Queue::try_emplace`, specialised to a single-threaded run: the
first loop iteration decides. If the slot's generation equals
`turn(head) * 2` the CAS on `head_` succeeds (no concurrent writer),
the value is assigned and the generation advanced; otherwise the re-read
of `head_` necessarily returns the same value, so the call reports
failure. The out-of-range default of `getD` is never reached (the index
is `head % capacity < capacity`). -/
def try_emplace (q : MPMC_Queue α) (v : α) : Bool × MPMC_Queue α :=
  if q.turn q.head * 2 % W = (q.buffer.getD (q.head % q.capacity) { data := v, turn := 0 }).turn then
    (true,
      { q with
        head := (q.head + 1) % W
        buffer := q.buffer.set (q.head % q.capacity)
          { (q.buffer.getD (q.head % q.capacity) { data := v, turn := 0 }).assign_value v with
            turn := (q.turn q.head * 2 + 1) % W } })
  else
    (false, q)

/-- `MPMC_Queue::try_push` (both overloads): forwards to `try_emplace`. -/
def try_push (q : MPMC_Queue α) (v : α) : Bool × MPMC_Queue α :=
  q.try_emplace v

/-- `MPMC_Queue::emplace` (blocking), in a single-threaded run: the
`fetch_add` claims position `head_`; if the slot is already in the
expected phase the wait loop exits at once and the value is published,
otherwise the thread would spin forever (`none`). -/
def emplace (q : MPMC_Queue α) (v : α) : Option (MPMC_Queue α) :=
  if q.turn q.head * 2 % W = (q.buffer.getD (q.head % q.capacity) { data := v, turn := 0 }).turn then
    some
      { q with
        head := (q.head + 1) % W
        buffer := q.buffer.set (q.head % q.capacity)
          { (q.buffer.getD (q.head % q.capacity) { data := v, turn := 0 }).assign_value v with
            turn := (q.turn q.head * 2 + 1) % W } }
  else
    none

/-- `MPMC_Queue::push` (both overloads): forwards to `emplace`. -/
def push (q : MPMC_Queue α) (v : α) : Option (MPMC_Queue α) :=
  q.emplace v

/-- `MPMC_Queue::try_pop(T& val)`, specialised to a single-threaded run
(first iteration decides, CAS succeeds, re-read is stable). Returns the
success flag, the final value of the by-reference argument `val`
(unchanged on failure), and the final queue state. -/
def try_pop (q : MPMC_Queue α) (val : α) : Bool × α × MPMC_Queue α :=
  if (q.turn q.tail * 2 + 1) % W = (q.buffer.getD (q.tail % q.capacity) { data := val, turn := 0 }).turn then
    (true,
      (q.buffer.getD (q.tail % q.capacity) { data := val, turn := 0 }).return_value,
      { q with
        tail := (q.tail + 1) % W
        buffer := q.buffer.set (q.tail % q.capacity)
          { q.buffer.getD (q.tail % q.capacity) { data := val, turn := 0 } with
            turn := (q.turn q.tail * 2 + 2) % W } })
  else
    (false, val, q)

/-- `MPMC_Queue::pop(T& val)` (blocking), single-threaded: the
`fetch_add` claims position `tail_`; if the slot holds a value for this
round it is extracted at once, otherwise the thread would spin forever
(`none`). -/
def pop (q : MPMC_Queue α) (val : α) : Option (α × MPMC_Queue α) :=
  if (q.turn q.tail * 2 + 1) % W = (q.buffer.getD (q.tail % q.capacity) { data := val, turn := 0 }).turn then
    some
      ((q.buffer.getD (q.tail % q.capacity) { data := val, turn := 0 }).return_value,
      { q with
        tail := (q.tail + 1) % W
        buffer := q.buffer.set (q.tail % q.capacity)
          { q.buffer.getD (q.tail % q.capacity) { data := val, turn := 0 } with
            turn := (q.turn q.tail * 2 + 2) % W } })
  else
    none

/-- Conversion of a `std::size_t` value to `std::ptrdiff_t` (64-bit
two's complement). -/
def toSigned (u : Nat) : Int :=
  if u < 9223372036854775808 then (u : Int) else (u : Int) - (W : Int)

/-- `MPMC_Queue::size()`:
`maxToTail = MAX_SIZE_T - tail` (no wrap, `tail ≤ MAX_SIZE_T`);
`headToTail = head - tail` computed in `size_t` (wrapping) and then
converted to the signed `ptrdiff_t`;
the comparison `maxToTail < std::abs(headToTail)` promotes the absolute
value back to `size_t`; the selected branch `maxToTail + head` is a
wrapping `size_t` sum converted to `ptrdiff_t` on return. -/
def size (q : MPMC_Queue α) : Int :=
  if MAX_SIZE_T - q.tail < (toSigned ((q.head + (W - q.tail)) % W)).natAbs then
    toSigned ((MAX_SIZE_T - q.tail + q.head) % W)
  else
    toSigned ((q.head + (W - q.tail)) % W)

/-- `MPMC_Queue::empty()`. -/
def empty (q : MPMC_Queue α) : Bool :=
  q.size ≤ 0

/-- The unsigned (`size_t`, wrapping) difference `head_ - tail_`. -/
def unsignedDiff (q : MPMC_Queue α) : Nat :=
  (q.head + (W - q.tail)) % W

end MPMC_Queue

/-- An abstract call made by the (single) client in a sequential run:
a non-blocking push of a value, or a non-blocking pop. -/
inductive QOp (α : Type) where
  | push : α → QOp α
  | pop : QOp α
  deriving DecidableEq, Repr

/-- Result of running a sequence of calls: the final queue, the values
accepted by successful pushes (in order), and the values returned by
successful pops (in order). -/
structure RunResult (α : Type) where
  queue : MPMC_Queue α
  pushed : List α
  popped : List α
  deriving DecidableEq, Repr

/-- Sequentially run a list of calls against the queue. `d0` is the value
the client passes as the `val` out-argument of `try_pop`. -/
def runTrace {α : Type} (d0 : α) (q : MPMC_Queue α) : List (QOp α) → RunResult α
  | [] => { queue := q, pushed := [], popped := [] }
  | QOp.push v :: ops =>
    let r := q.try_push v
    if r.1 then
      let rest := runTrace d0 r.2 ops
      { rest with pushed := v :: rest.pushed }
    else
      runTrace d0 r.2 ops
  | QOp.pop :: ops =>
    let r := q.try_pop d0
    if r.1 then
      let rest := runTrace d0 r.2.2 ops
      { rest with popped := r.2.1 :: rest.popped }
    else
      runTrace d0 r.2.2 ops

/-- One observation of the shared atomics made by an iteration of the
`try_emplace` loop under concurrency: the value loaded from the slot's
generation counter; the outcome of the CAS on `head_` if attempted
(`none` = CAS succeeded, `some h` = CAS failed and loaded `h` into
`head`); and the value a re-read of `head_` in the failure branch would
return. -/
structure ProbeObs where
  slotTurn : Nat
  casFail : Option Nat
  rereadHead : Nat
  deriving DecidableEq, Repr

/-- The control flow of the `while (true)` loop of
`MPMC_Queue::try_emplace`, run against an explicit list of observations
of the shared atomics (one per iteration). `none` means the supplied
observations were exhausted with the loop still running. -/
def tryEmplaceLoop (c : Nat) : Nat → List ProbeObs → Option Bool
  | _, [] => none
  | head, o :: rest =>
    if head / c * 2 % W = o.slotTurn then
      match o.casFail with
      | none => some true
      | some h2 => tryEmplaceLoop c h2 rest
    else if o.rereadHead = head then
      some false
    else
      tryEmplaceLoop c o.rereadHead rest

/-- The first logical position `≥ h` that lands on slot `i` (`i < c`). -/
def nextp (h c i : Nat) : Nat :=
  if h % c ≤ i then h - h % c + i else h - h % c + c + i

/-- The alternating client of a capacity-1 queue: `n` rounds of one
successful push of `v` followed by one successful pop. -/
def altOps (v : Nat) : Nat → List (QOp Nat)
  | 0 => []
  | n + 1 => QOp.push v :: QOp.pop :: altOps v n

/-- The queue produced by `construct 1 0` over `Nat`. -/
def q1nat : MPMC_Queue Nat :=
  { capacity := 1, buffer := [{ data := 0, turn := 0 }], tail := 0, head := 0 }

/-- The queue produced by `construct 2 0` over `Nat`. -/
def q2nat : MPMC_Queue Nat :=
  { capacity := 2, buffer := [{ data := 0, turn := 0 }, { data := 0, turn := 0 }],
    tail := 0, head := 0 }

/-- A capacity-1 queue holding one produced-but-unconsumed value. -/
def qFull1 : MPMC_Queue Nat :=
  { capacity := 1, buffer := [{ data := 5, turn := 1 }], tail := 0, head := 1 }

/-- The state of a capacity-1 queue after `2 ^ 64 - 1` push/pop rounds
followed by one more successful push: the producer counter has wrapped
to `0` while the consumer counter still reads `2 ^ 64 - 1`, and one value
is resident. -/
def qWrap : MPMC_Queue Nat :=
  { capacity := 1, buffer := [{ data := 7, turn := MAX_SIZE_T }],
    tail := MAX_SIZE_T, head := 0 }

/-! ## The protocol invariant

`Inv c d0 P t q` relates a queue state `q` to its sequential history:
`P` is the list of all values accepted by successful pushes (so the true,
unwrapped producer position counter is `P.length`) and `t` is the number
of successful pops (the true consumer position counter). Positions
`t ≤ p < P.length` are pending: produced but not yet consumed. Each slot
`i` either holds the value of its unique pending position (odd
generation), or is empty and carries the even generation of the next
round in which it will be written. -/

structure Inv {α : Type} (c : Nat) (d0 : α) (P : List α) (t : Nat)
    (q : MPMC_Queue α) : Prop where
  hc : 1 ≤ c
  hcap : q.capacity = c
  hbuf : q.buffer.length = c
  hhead : q.head = P.length % W
  htail : q.tail = t % W
  htle : t ≤ P.length
  hdiff : P.length ≤ t + c
  hslot : ∀ i, i < c →
    (∃ p, t ≤ p ∧ p < P.length ∧ p % c = i ∧
        (q.buffer.getD i { data := d0, turn := 0 }).turn = (p / c * 2 + 1) % W ∧
        (q.buffer.getD i { data := d0, turn := 0 }).data = P.getD p d0) ∨
    ((∀ p, t ≤ p → p < P.length → p % c ≠ i) ∧
        (q.buffer.getD i { data := d0, turn := 0 }).turn = nextp P.length c i / c * 2 % W)

/-! ## Helper lemmas: list access and position arithmetic -/

theorem getD_congr {β : Type} (l : List β) {i : Nat} (h : i < l.length) (d1 d2 : β) :
    l.getD i d1 = l.getD i d2 := by
  rw [List.getD_eq_getElem l d1 h, List.getD_eq_getElem l d2 h]

theorem getD_set_self {β : Type} (l : List β) {i : Nat} (h : i < l.length) (b d : β) :
    (l.set i b).getD i d = b := by
  have h2 : i < (l.set i b).length := by rw [List.length_set]; exact h
  rw [List.getD_eq_getElem _ _ h2]
  simp [List.getElem_set]

theorem getD_set_ne {β : Type} (l : List β) {i j : Nat} (hne : i ≠ j) (b d : β) :
    (l.set i b).getD j d = l.getD j d := by
  by_cases hj : j < l.length
  · have h2 : j < (l.set i b).length := by rw [List.length_set]; exact hj
    rw [List.getD_eq_getElem _ _ h2, List.getD_eq_getElem _ _ hj]
    simp [List.getElem_set, hne]
  · have h1 : l.length ≤ j := Nat.le_of_not_lt hj
    rw [List.getD_eq_default _ _ h1, List.getD_eq_default]
    rw [List.length_set]; exact h1

theorem getD_snoc {β : Type} (l : List β) (v d : β) :
    (l ++ [v]).getD l.length d = v := by
  rw [List.getD_append_right l [v] d l.length (Nat.le_refl _)]
  simp

theorem getD_replicate_lt {β : Type} {n i : Nat} (h : i < n) (a d : β) :
    (List.replicate n a).getD i d = a := by
  have h2 : i < (List.replicate n a).length := by rw [List.length_replicate]; exact h
  rw [List.getD_eq_getElem _ _ h2]
  simp

theorem drop_getD_cons {β : Type} (l : List β) {i : Nat} (h : i < l.length) (d : β) :
    l.drop i = l.getD i d :: l.drop (i + 1) := by
  rw [List.getD_eq_getElem _ _ h]
  exact List.drop_eq_getElem_cons h

/-- A value written as an odd generation (`_ * 2 + 1`) and a value written
as an even generation (`_ * 2`) stay distinct after the `size_t` wrap,
because `W` is even. -/
theorem odd_ne_even_mod (a b : Nat) : (a * 2 + 1) % W ≠ b * 2 % W := by
  intro hEq
  have h2 : (2 : Nat) ∣ W := by norm_num
  have h1 := congrArg (· % 2) hEq
  simp only [Nat.mod_mod_of_dvd _ h2] at h1
  omega

/-- Two positions with the same slot residue lying in one window of `c`
consecutive positions are equal. -/
theorem window_unique {c a p1 p2 : Nat} (hmod : p1 % c = p2 % c)
    (h1 : a ≤ p1) (h2 : p1 < a + c) (h3 : a ≤ p2) (h4 : p2 < a + c) : p1 = p2 := by
  rcases Nat.le_total p1 p2 with hle | hle
  · have hdvd : c ∣ p2 - p1 := (Nat.modEq_iff_dvd' hle).mp hmod
    have := Nat.eq_zero_of_dvd_of_lt hdvd (by omega)
    omega
  · have hdvd : c ∣ p1 - p2 := (Nat.modEq_iff_dvd' hle).mp hmod.symm
    have := Nat.eq_zero_of_dvd_of_lt hdvd (by omega)
    omega

theorem nextp_mod {c i : Nat} (hi : i < c) (h : Nat) :
    nextp h c i % c = i := by
  have hd : c * (h / c) + h % c = h := Nat.div_add_mod h c
  have hsub : h - h % c + h % c = h := Nat.sub_add_cancel (Nat.mod_le h c)
  unfold nextp
  split
  · have he : h - h % c + i = c * (h / c) + i := by omega
    rw [he, Nat.mul_add_mod, Nat.mod_eq_of_lt hi]
  · have he : h - h % c + c + i = c * (h / c + 1) + i := by
      rw [Nat.mul_add, Nat.mul_one]; omega
    rw [he, Nat.mul_add_mod, Nat.mod_eq_of_lt hi]

theorem le_nextp {c : Nat} (hc : 0 < c) (h i : Nat) : h ≤ nextp h c i := by
  have hsub : h - h % c + h % c = h := Nat.sub_add_cancel (Nat.mod_le h c)
  have hlt : h % c < c := Nat.mod_lt h hc
  unfold nextp; split <;> omega

theorem nextp_lt {c i : Nat} (hi : i < c) (h : Nat) : nextp h c i < h + c := by
  have hsub : h - h % c + h % c = h := Nat.sub_add_cancel (Nat.mod_le h c)
  have hlt : h % c < c := Nat.mod_lt h (Nat.lt_of_le_of_lt (Nat.zero_le i) hi)
  unfold nextp; split <;> omega

theorem nextp_self (h c : Nat) : nextp h c (h % c) = h := by
  have hsub : h - h % c + h % c = h := Nat.sub_add_cancel (Nat.mod_le h c)
  unfold nextp; split <;> omega

/-- A freshly constructed queue satisfies the invariant with empty
history. -/
theorem construct_inv {α : Type} {cap : Nat} {d0 : α} {q0 : MPMC_Queue α}
    (h : MPMC_Queue.construct cap d0 = Except.ok q0) :
    Inv q0.capacity d0 [] 0 q0 := by
  unfold MPMC_Queue.construct at h
  split at h
  · exact absurd h (by simp)
  · rename_i hcap1
    simp only [Except.ok.injEq] at h
    subst h
    refine ⟨?_, rfl, ?_, ?_, ?_, ?_, ?_, ?_⟩
    · split
      · show 1 ≤ MAX_SIZE_T - 1
        decide
      · show 1 ≤ cap
        omega
    · simp
    · simp
    · simp
    · simp
    · simp
    · intro i hi
      simp only [List.length_replicate] at hi
      right
      refine ⟨fun p hp1 hp2 => absurd hp2 (by simp), ?_⟩
      rw [getD_replicate_lt hi]
      simp only [List.length_nil]
      have h1 : nextp 0 (if cap = MAX_SIZE_T then MAX_SIZE_T - 1 else cap) i = i := by
        unfold nextp
        rw [Nat.zero_mod]
        simp
      rw [h1, Nat.div_eq_of_lt hi]
      rfl

/-- `try_emplace` in a single-threaded run: on success the new value
becomes the last pending value of the history; on failure the state is
returned unchanged. -/
theorem try_emplace_step {α : Type} {c : Nat} {d0 : α} {P : List α} {t : Nat}
    {q : MPMC_Queue α} (hInv : Inv c d0 P t q) (hW : P.length < W) (v : α) :
    ((q.try_emplace v).1 = true → Inv c d0 (P ++ [v]) t (q.try_emplace v).2) ∧
    ((q.try_emplace v).1 = false → (q.try_emplace v).2 = q) := by
  obtain ⟨hc, hcap, hbuf, hhead, htail, htle, hdiff, hslot⟩ := hInv
  have hhead1 : q.head = P.length := by rw [hhead, Nat.mod_eq_of_lt hW]
  have hi : P.length % c < c := Nat.mod_lt _ hc
  have hidx : P.length % c < q.buffer.length := by rw [hbuf]; exact hi
  have hix : q.head % q.capacity = P.length % c := by rw [hhead1, hcap]
  rcases hslot (P.length % c) hi with ⟨p, hp1, hp2, hp3, hpturn, hpdata⟩ | ⟨hnone, hbturn⟩
  · -- the slot of position `P.length` still holds a pending value: the
    -- expected even generation cannot match the stored odd one
    have hcond : ¬ (q.turn q.head * 2 % W
        = (q.buffer.getD (q.head % q.capacity) { data := v, turn := 0 }).turn) := by
      rw [hix, getD_congr _ hidx { data := v, turn := 0 } { data := d0, turn := 0 }, hpturn]
      exact fun hEq => odd_ne_even_mod (p / c) (q.turn q.head) hEq.symm
    have he : q.try_emplace v = (false, q) := by
      unfold MPMC_Queue.try_emplace
      rw [if_neg hcond]
    rw [he]
    exact ⟨fun hb => absurd hb (by simp), fun _ => rfl⟩
  · -- the slot is empty for exactly this round: the push succeeds
    have hcond : q.turn q.head * 2 % W
        = (q.buffer.getD (q.head % q.capacity) { data := v, turn := 0 }).turn := by
      rw [hix, getD_congr _ hidx { data := v, turn := 0 } { data := d0, turn := 0 }, hbturn,
        nextp_self]
      unfold MPMC_Queue.turn
      rw [hhead1, hcap]
    have he : q.try_emplace v = (true,
        { q with
          head := (q.head + 1) % W
          buffer := q.buffer.set (q.head % q.capacity)
            { (q.buffer.getD (q.head % q.capacity) { data := v, turn := 0 }).assign_value v with
              turn := (q.turn q.head * 2 + 1) % W } }) := by
      unfold MPMC_Queue.try_emplace
      rw [if_pos hcond]
    have hfull : P.length < t + c := by
      rcases Nat.lt_or_ge P.length (t + c) with hlt | hge
      · exact hlt
      · exfalso
        have hfl : P.length = t + c := by omega
        have hq1 : t ≤ nextp t c (P.length % c) := le_nextp hc t _
        have hq2 : nextp t c (P.length % c) < t + c := nextp_lt hi t
        exact hnone (nextp t c (P.length % c)) hq1 (by omega) (nextp_mod hi t)
    rw [he]
    refine ⟨fun _ => ?_, fun hb => absurd hb (by simp)⟩
    constructor
    · exact hc
    · exact hcap
    · simpa [List.length_set] using hbuf
    · simp only [List.length_append, List.length_cons, List.length_nil]
      rw [hhead1]
    · exact htail
    · simp only [List.length_append, List.length_cons, List.length_nil]
      omega
    · simp only [List.length_append, List.length_cons, List.length_nil]
      omega
    · intro j hj
      simp only [List.length_append, List.length_cons, List.length_nil]
      by_cases hji : j = P.length % c
      · -- the freshly written slot now holds pending position `P.length`
        left
        refine ⟨P.length, htle, by omega, hji.symm, ?_, ?_⟩
        · rw [hji, hix, getD_set_self q.buffer hidx]
          show (q.turn q.head * 2 + 1) % W = (P.length / c * 2 + 1) % W
          unfold MPMC_Queue.turn
          rw [hhead1, hcap]
        · rw [hji, hix, getD_set_self q.buffer hidx]
          rw [getD_snoc P v d0]
          rfl
      · -- every other slot is untouched
        have hne : q.head % q.capacity ≠ j := by
          rw [hix]
          exact fun hEq => hji hEq.symm
        rw [getD_set_ne q.buffer hne]
        rcases hslot j hj with ⟨p, hp1, hp2, hp3, hpturn, hpdata⟩ | ⟨hnone2, hbturn2⟩
        · left
          refine ⟨p, hp1, by omega, hp3, hpturn, ?_⟩
          rw [hpdata, List.getD_append _ _ _ _ hp2]
        · right
          constructor
          · intro p hp1 hp2
            rcases Nat.lt_or_ge p P.length with hplt | hpge
            · exact hnone2 p hp1 hplt
            · have hpe : p = P.length := by omega
              rw [hpe]
              exact fun hEq => hji hEq.symm
          · rw [hbturn2]
            have hnn : nextp (P.length + 1) c j = nextp P.length c j := by
              have k1 : nextp P.length c j % c = j := nextp_mod hj _
              have k2 : nextp (P.length + 1) c j % c = j := nextp_mod hj _
              have k3 : P.length ≤ nextp P.length c j := le_nextp hc _ _
              have k4 : nextp P.length c j < P.length + c := nextp_lt hj _
              have k5 : P.length + 1 ≤ nextp (P.length + 1) c j := le_nextp hc _ _
              have k6 : nextp (P.length + 1) c j < P.length + 1 + c := nextp_lt hj _
              have k7 : nextp P.length c j ≠ P.length := by
                intro hEq
                rw [hEq] at k1
                exact hji k1.symm
              exact window_unique (k2.trans k1.symm) k5 k6 (by omega) (by omega)
            rw [hnn]


/-- `try_pop` in a single-threaded run: on success the oldest pending
value (position `t`) is returned and the consumer counter advances; on
failure both the state and the `val` argument are returned unchanged. -/
theorem try_pop_step {α : Type} {c : Nat} {d0 : α} {P : List α} {t : Nat}
    {q : MPMC_Queue α} (hInv : Inv c d0 P t q) (hW : P.length < W) (val : α) :
    ((q.try_pop val).1 = true →
        Inv c d0 P (t + 1) (q.try_pop val).2.2 ∧ t < P.length ∧
        (q.try_pop val).2.1 = P.getD t d0) ∧
    ((q.try_pop val).1 = false →
        (q.try_pop val).2.2 = q ∧ (q.try_pop val).2.1 = val) := by
  obtain ⟨hc, hcap, hbuf, hhead, htail, htle, hdiff, hslot⟩ := hInv
  have htail1 : q.tail = t := by
    rw [htail, Nat.mod_eq_of_lt (by omega)]
  have hi : t % c < c := Nat.mod_lt _ hc
  have hidx : t % c < q.buffer.length := by rw [hbuf]; exact hi
  have hix : q.tail % q.capacity = t % c := by rw [htail1, hcap]
  rcases hslot (t % c) hi with ⟨p, hp1, hp2, hp3, hpturn, hpdata⟩ | ⟨hnone, hbturn⟩
  · -- slot `t % c` holds a pending value; its position must be `t` itself
    have hpt : p = t :=
      window_unique hp3 hp1 (by omega) (Nat.le_refl t) (by omega)
    rw [hpt] at hp2 hpturn hpdata
    have hcond : (q.turn q.tail * 2 + 1) % W
        = (q.buffer.getD (q.tail % q.capacity) { data := val, turn := 0 }).turn := by
      rw [hix, getD_congr _ hidx { data := val, turn := 0 } { data := d0, turn := 0 }, hpturn]
      unfold MPMC_Queue.turn
      rw [htail1, hcap]
    have he : q.try_pop val = (true,
        (q.buffer.getD (q.tail % q.capacity) { data := val, turn := 0 }).return_value,
        { q with
          tail := (q.tail + 1) % W
          buffer := q.buffer.set (q.tail % q.capacity)
            { q.buffer.getD (q.tail % q.capacity) { data := val, turn := 0 } with
              turn := (q.turn q.tail * 2 + 2) % W } }) := by
      unfold MPMC_Queue.try_pop
      rw [if_pos hcond]
    rw [he]
    refine ⟨fun _ => ⟨?_, hp2, ?_⟩, fun hb => absurd hb (by simp)⟩
    · constructor
      · exact hc
      · exact hcap
      · simpa [List.length_set] using hbuf
      · exact hhead
      · rw [htail1]
      · omega
      · omega
      · intro j hj
        by_cases hji : j = t % c
        · -- the consumed slot is now empty, waiting for round `(t + c) / c`
          right
          constructor
          · intro p2 hq1 hq2 hq3
            have : p2 = t :=
              window_unique (hq3.trans hji) (by omega) (by omega) (Nat.le_refl t) (by omega)
            omega
          · rw [hji, hix, getD_set_self q.buffer hidx]
            show (q.turn q.tail * 2 + 2) % W = nextp P.length c (t % c) / c * 2 % W
            have hnn : nextp P.length c (t % c) = t + c := by
              have k1 : nextp P.length c (t % c) % c = t % c := nextp_mod hi _
              have k2 : P.length ≤ nextp P.length c (t % c) := le_nextp hc _ _
              have k3 : nextp P.length c (t % c) < P.length + c := nextp_lt hi _
              exact window_unique (k1.trans (Nat.add_mod_right t c).symm)
                k2 k3 (by omega) (by omega)
            rw [hnn, Nat.add_div_right t hc]
            unfold MPMC_Queue.turn
            rw [htail1, hcap]
            have : (t / c + 1) * 2 = t / c * 2 + 2 := by omega
            rw [this]
        · have hne : q.tail % q.capacity ≠ j := by
            rw [hix]
            exact fun hEq => hji hEq.symm
          rw [getD_set_ne q.buffer hne]
          rcases hslot j hj with ⟨p2, hq1, hq2, hq3, hqturn, hqdata⟩ | ⟨hnone2, hbturn2⟩
          · left
            have hp2t : p2 ≠ t := by
              intro hEq
              rw [hEq] at hq3
              exact hji hq3.symm
            exact ⟨p2, by omega, hq2, hq3, hqturn, hqdata⟩
          · right
            exact ⟨fun p2 hq1 hq2 => hnone2 p2 (by omega) hq2, hbturn2⟩
    · rw [hix, getD_congr _ hidx { data := val, turn := 0 } { data := d0, turn := 0 }]
      exact hpdata
  · -- slot `t % c` is empty: nothing pending on it, so the queue reports
    -- failure (in particular this covers the empty-queue case `t = P.length`)
    have hcond : ¬ ((q.turn q.tail * 2 + 1) % W
        = (q.buffer.getD (q.tail % q.capacity) { data := val, turn := 0 }).turn) := by
      rw [hix, getD_congr _ hidx { data := val, turn := 0 } { data := d0, turn := 0 }, hbturn]
      exact odd_ne_even_mod (q.turn q.tail) (nextp P.length c (t % c) / c)
    have he : q.try_pop val = (false, val, q) := by
      unfold MPMC_Queue.try_pop
      rw [if_neg hcond]
    rw [he]
    exact ⟨fun hb => absurd hb (by simp), fun _ => ⟨rfl, rfl⟩⟩

/-- When the queue is full (`c` pending values), `try_emplace` reports
failure. This holds for every value of the (possibly wrapped) `head_`
counter, because odd and even generations stay distinct modulo `W`. -/
theorem try_emplace_full {α : Type} {c : Nat} {d0 : α} {P : List α} {t : Nat}
    {q : MPMC_Queue α} (hInv : Inv c d0 P t q) (hfull : P.length = t + c)
    (v : α) : (q.try_emplace v).1 = false := by
  obtain ⟨hc, hcap, hbuf, hhead, htail, htle, hdiff, hslot⟩ := hInv
  have hi : q.head % c < c := Nat.mod_lt _ hc
  have hidx : q.head % c < q.buffer.length := by rw [hbuf]; exact hi
  have hix : q.head % q.capacity = q.head % c := by rw [hcap]
  rcases hslot (q.head % c) hi with ⟨p, hp1, hp2, hp3, hpturn, hpdata⟩ | ⟨hnone, hbturn⟩
  · have hcond : ¬ (q.turn q.head * 2 % W
        = (q.buffer.getD (q.head % q.capacity) { data := v, turn := 0 }).turn) := by
      rw [hix, getD_congr _ hidx { data := v, turn := 0 } { data := d0, turn := 0 }, hpturn]
      exact fun hEq => odd_ne_even_mod (p / c) (q.turn q.head) hEq.symm
    unfold MPMC_Queue.try_emplace
    rw [if_neg hcond]
  · exfalso
    have hq1 : t ≤ nextp t c (q.head % c) := le_nextp hc t _
    have hq2 : nextp t c (q.head % c) < t + c := nextp_lt hi t
    exact hnone (nextp t c (q.head % c)) hq1 (by omega) (nextp_mod hi t)


/-- Running any sequence of non-blocking calls preserves the invariant,
and the values popped so far are exactly the slice of the push history
starting at the pop counter. -/
theorem runTrace_inv {α : Type} {c : Nat} {d0 : α} :
    ∀ (ops : List (QOp α)) (P : List α) (t : Nat) (q : MPMC_Queue α),
      Inv c d0 P t q → P.length + ops.length ≤ W →
      Inv c d0 (P ++ (runTrace d0 q ops).pushed)
        (t + (runTrace d0 q ops).popped.length) (runTrace d0 q ops).queue ∧
      (runTrace d0 q ops).popped
        = ((P ++ (runTrace d0 q ops).pushed).drop t).take
            (runTrace d0 q ops).popped.length := by
  intro ops
  induction ops with
  | nil =>
    intro P t q hInv hlen
    simp only [runTrace, List.append_nil, List.length_nil, Nat.add_zero, List.take_zero]
    exact ⟨hInv, trivial⟩
  | cons op rest ih =>
    intro P t q hInv hlen
    have hW : P.length < W := by
      simp only [List.length_cons] at hlen
      omega
    cases op with
    | push v =>
      have hstep := try_emplace_step hInv hW v
      cases hb : (q.try_emplace v).1 with
      | true =>
        have hInv2 := hstep.1 hb
        have hlen2 : (P ++ [v]).length + rest.length ≤ W := by
          simp only [List.length_append, List.length_cons, List.length_nil] at *
          omega
        have ihr := ih (P ++ [v]) t (q.try_emplace v).2 hInv2 hlen2
        simp only [List.append_assoc, List.singleton_append] at ihr
        have hrun : runTrace d0 q (QOp.push v :: rest)
            = { runTrace d0 (q.try_emplace v).2 rest with
                pushed := v :: (runTrace d0 (q.try_emplace v).2 rest).pushed } := by
          simp only [runTrace, MPMC_Queue.try_push]
          rw [if_pos hb]
        rw [hrun]
        exact ihr
      | false =>
        have hq2 : (q.try_emplace v).2 = q := hstep.2 hb
        have hrun : runTrace d0 q (QOp.push v :: rest)
            = runTrace d0 (q.try_emplace v).2 rest := by
          simp only [runTrace, MPMC_Queue.try_push]
          rw [if_neg (by simp [hb])]
        rw [hrun, hq2]
        refine ih P t q hInv ?_
        simp only [List.length_cons] at hlen
        omega
    | pop =>
      have hstep := try_pop_step hInv hW d0
      cases hb : (q.try_pop d0).1 with
      | true =>
        obtain ⟨hInv2, htlt, hval⟩ := hstep.1 hb
        have hlen2 : P.length + rest.length ≤ W := by
          simp only [List.length_cons] at hlen
          omega
        have ihr := ih P (t + 1) (q.try_pop d0).2.2 hInv2 hlen2
        have hrun : runTrace d0 q (QOp.pop :: rest)
            = { runTrace d0 (q.try_pop d0).2.2 rest with
                popped := (q.try_pop d0).2.1
                  :: (runTrace d0 (q.try_pop d0).2.2 rest).popped } := by
          simp only [runTrace]
          rw [if_pos hb]
        rw [hrun]
        constructor
        · show Inv c d0 _ (t + ((q.try_pop d0).2.1
            :: (runTrace d0 (q.try_pop d0).2.2 rest).popped).length) _
          have he : t + ((q.try_pop d0).2.1
              :: (runTrace d0 (q.try_pop d0).2.2 rest).popped).length
              = t + 1 + (runTrace d0 (q.try_pop d0).2.2 rest).popped.length := by
            simp only [List.length_cons]
            omega
          rw [he]
          exact ihr.1
        · show (q.try_pop d0).2.1 :: (runTrace d0 (q.try_pop d0).2.2 rest).popped
            = ((P ++ (runTrace d0 (q.try_pop d0).2.2 rest).pushed).drop t).take
              ((q.try_pop d0).2.1
                :: (runTrace d0 (q.try_pop d0).2.2 rest).popped).length
          have htP : t < (P ++ (runTrace d0 (q.try_pop d0).2.2 rest).pushed).length := by
            simp only [List.length_append]
            omega
          rw [List.length_cons,
            drop_getD_cons (P ++ (runTrace d0 (q.try_pop d0).2.2 rest).pushed) htP d0,
            List.take_succ_cons, List.getD_append _ _ _ _ htlt]
          exact congrArg₂ List.cons hval ihr.2
      | false =>
        obtain ⟨hq2, _⟩ := hstep.2 hb
        have hrun : runTrace d0 q (QOp.pop :: rest)
            = runTrace d0 (q.try_pop d0).2.2 rest := by
          simp only [runTrace]
          rw [if_neg (by simp [hb])]
        rw [hrun, hq2]
        refine ih P t q hInv ?_
        simp only [List.length_cons] at hlen
        omega


/-! ## Concrete evaluation on a capacity-1 queue, across counter wrap -/

theorem cap1_push (m d v : Nat) :
    MPMC_Queue.try_emplace
      { capacity := 1, buffer := [{ data := d, turn := m * 2 % W }],
        tail := m % W, head := m % W } v
      = (true,
        { capacity := 1, buffer := [{ data := v, turn := (m * 2 + 1) % W }],
          tail := m % W, head := (m + 1) % W }) := by
  have h1 : m % W * 2 % W = m * 2 % W := Nat.mod_mul_mod
  have h2 : (m % W * 2 + 1) % W = (m * 2 + 1) % W :=
    ((Nat.mod_modEq m W).mul_right 2).add_right 1
  have h3 : (m % W + 1) % W = (m + 1) % W := Nat.mod_add_mod m W 1
  simp [MPMC_Queue.try_emplace, MPMC_Queue.turn, Slot.assign_value,
    Nat.div_one, Nat.mod_one, h1, h2, h3]

theorem cap1_pop (m v w : Nat) :
    MPMC_Queue.try_pop
      { capacity := 1, buffer := [{ data := v, turn := (m * 2 + 1) % W }],
        tail := m % W, head := (m + 1) % W } w
      = (true, v,
        { capacity := 1, buffer := [{ data := v, turn := (m + 1) * 2 % W }],
          tail := (m + 1) % W, head := (m + 1) % W }) := by
  have h2 : (m % W * 2 + 1) % W = (m * 2 + 1) % W :=
    ((Nat.mod_modEq m W).mul_right 2).add_right 1
  have h4 : (m % W * 2 + 2) % W = (m + 1) * 2 % W := by
    have hq : (m + 1) * 2 = m * 2 + 2 := by omega
    rw [hq]
    exact ((Nat.mod_modEq m W).mul_right 2).add_right 2
  have h3 : (m % W + 1) % W = (m + 1) % W := Nat.mod_add_mod m W 1
  simp [MPMC_Queue.try_pop, MPMC_Queue.turn, Slot.return_value,
    Nat.div_one, Nat.mod_one, h2, h3, h4]

theorem runTrace_append {α : Type} (d0 : α) (q : MPMC_Queue α)
    (l1 l2 : List (QOp α)) :
    (runTrace d0 q (l1 ++ l2)).queue
      = (runTrace d0 (runTrace d0 q l1).queue l2).queue := by
  induction l1 generalizing q with
  | nil => rfl
  | cons op rest ih =>
    cases op with
    | push v =>
      simp only [List.cons_append, runTrace]
      by_cases hb : (q.try_push v).1 = true <;> simp [hb, ih]
    | pop =>
      simp only [List.cons_append, runTrace]
      by_cases hb : (q.try_pop d0).1 = true <;> simp [hb, ih]

theorem altOps_queue (v : Nat) : ∀ n m d : Nat,
    (runTrace 0
        { capacity := 1, buffer := [{ data := d, turn := m * 2 % W }],
          tail := m % W, head := m % W } (altOps v n)).queue
      = { capacity := 1,
          buffer := [{ data := if n = 0 then d else v, turn := (m + n) * 2 % W }],
          tail := (m + n) % W, head := (m + n) % W } := by
  intro n
  induction n with
  | zero =>
    intro m d
    simp [altOps, runTrace]
  | succ k ih =>
    intro m d
    show (runTrace 0 _ (QOp.push v :: QOp.pop :: altOps v k)).queue = _
    simp only [runTrace, MPMC_Queue.try_push, cap1_push, cap1_pop]
    simp only [ite_true, eq_self_iff_true, if_true]
    rw [ih (m + 1) v]
    have he : m + 1 + k = m + (k + 1) := by omega
    rw [he]
    cases k <;> simp


/-- The wrapped state `qWrap` is reachable: capacity 1, `2 ^ 64 - 1`
push/pop rounds, then one more push. -/
theorem qWrap_reachable :
    (runTrace 0 q1nat (altOps 7 (W - 1) ++ [QOp.push 7])).queue = qWrap := by
  rw [runTrace_append]
  have h0 : q1nat
      = { capacity := 1, buffer := [{ data := 0, turn := 0 * 2 % W }],
          tail := 0 % W, head := 0 % W } := by decide
  rw [h0, altOps_queue 7 (W - 1) 0 0]
  have e1 : 0 + (W - 1) = W - 1 := by omega
  rw [e1, if_neg (by decide : ¬ (W - 1 = 0))]
  simp only [runTrace, MPMC_Queue.try_push, cap1_push]
  decide


/-! ## Claim theorems -/

/-- Packaging: the invariant and the FIFO slice property for a run from
a freshly constructed queue. -/
theorem run_from_construct {α : Type} {cap : Nat} {d0 : α} {q0 : MPMC_Queue α}
    (hq : MPMC_Queue.construct cap d0 = Except.ok q0)
    (ops : List (QOp α)) (hlen : ops.length ≤ W) :
    Inv q0.capacity d0 (runTrace d0 q0 ops).pushed
      (runTrace d0 q0 ops).popped.length (runTrace d0 q0 ops).queue ∧
    (runTrace d0 q0 ops).popped
      = (runTrace d0 q0 ops).pushed.take (runTrace d0 q0 ops).popped.length := by
  have h0 := construct_inv hq
  have h := runTrace_inv ops [] 0 q0 h0 (by simpa using hlen)
  simp only [List.nil_append, List.drop_zero, Nat.zero_add] at h
  exact h

/-- C1: FIFO-by-position. In any sequential run from a constructed queue
(at most `2 ^ 64` calls, the range of the position counters), the values
returned by the successful pops are exactly the successfully pushed
values in push order: the k-th pop returns the value of the k-th push —
the consumer of logical position p receives the value of the producer of
position p. Moreover the blocking `emplace`/`pop` complete in a
sequential run exactly when `try_emplace`/`try_pop` succeed, with the
same resulting state and value. -/
theorem fifo_by_position {α : Type} (d0 : α) (cap : Nat) (q0 : MPMC_Queue α)
    (hq : MPMC_Queue.construct cap d0 = Except.ok q0)
    (ops : List (QOp α)) (hlen : ops.length ≤ W) :
    (runTrace d0 q0 ops).popped
      = (runTrace d0 q0 ops).pushed.take (runTrace d0 q0 ops).popped.length ∧
    (∀ (q q2 : MPMC_Queue α) (v : α),
        q.emplace v = some q2 ↔ q.try_emplace v = (true, q2)) ∧
    (∀ (q q2 : MPMC_Queue α) (w v : α),
        q.pop w = some (v, q2) ↔ q.try_pop w = (true, v, q2)) := by
  refine ⟨(run_from_construct hq ops hlen).2, ?_, ?_⟩
  · intro q q2 v
    unfold MPMC_Queue.emplace MPMC_Queue.try_emplace
    split <;> simp
  · intro q q2 w v
    unfold MPMC_Queue.pop MPMC_Queue.try_pop
    split <;> simp

theorem fifo_by_position_witness :
    (runTrace 0 q2nat [QOp.push 5, QOp.push 7, QOp.pop, QOp.pop]).popped
      = (runTrace 0 q2nat [QOp.push 5, QOp.push 7, QOp.pop, QOp.pop]).pushed.take
          (runTrace 0 q2nat [QOp.push 5, QOp.push 7, QOp.pop, QOp.pop]).popped.length :=
  (fifo_by_position 0 2 q2nat rfl [QOp.push 5, QOp.push 7, QOp.pop, QOp.pop]
    (by decide)).1

/-- C2: in every state reachable by a sequence of non-blocking calls the
unsigned difference `head - tail` is at most the capacity, and when it
equals the capacity (queue full) every `try_push` fails. -/
theorem head_tail_diff_bounded {α : Type} (d0 : α) (cap : Nat) (q0 : MPMC_Queue α)
    (hq : MPMC_Queue.construct cap d0 = Except.ok q0)
    (ops : List (QOp α)) (hlen : ops.length ≤ W) :
    (runTrace d0 q0 ops).queue.unsignedDiff ≤ q0.capacity ∧
    ((runTrace d0 q0 ops).queue.unsignedDiff = q0.capacity →
      ∀ v, ((runTrace d0 q0 ops).queue.try_push v).1 = false) := by
  obtain ⟨hInv, -⟩ := run_from_construct hq ops hlen
  have hInv2 := hInv
  obtain ⟨hc, hcap, hbuf, hhead, htail, htle, hdiff, hslot⟩ := hInv
  have hd : (runTrace d0 q0 ops).queue.unsignedDiff
      = ((runTrace d0 q0 ops).pushed.length
          - (runTrace d0 q0 ops).popped.length) % W := by
    unfold MPMC_Queue.unsignedDiff
    rw [hhead, htail]
    unfold W
    omega
  by_cases hcW : q0.capacity < W
  · have hlt : (runTrace d0 q0 ops).pushed.length
        - (runTrace d0 q0 ops).popped.length < W := by omega
    rw [hd, Nat.mod_eq_of_lt hlt]
    constructor
    · omega
    · intro heq v
      exact try_emplace_full hInv2 (by omega) v
  · have h1 : (runTrace d0 q0 ops).queue.unsignedDiff < W := by
      rw [hd]
      exact Nat.mod_lt _ (by decide)
    constructor
    · omega
    · intro heq v
      exfalso
      omega

theorem head_tail_diff_bounded_witness :
    (runTrace 0 q1nat [QOp.push 3]).queue.unsignedDiff ≤ q1nat.capacity ∧
    ((runTrace 0 q1nat [QOp.push 3]).queue.unsignedDiff = q1nat.capacity →
      ∀ v, ((runTrace 0 q1nat [QOp.push 3]).queue.try_push v).1 = false) :=
  head_tail_diff_bounded 0 1 q1nat rfl [QOp.push 3] (by decide)

/-- C3: construction fails with the capacity error exactly when the
requested capacity is less than one, and succeeds exactly when it is at
least one. -/
theorem capacity_rejection {α : Type} (d0 : α) (cap : Nat) :
    ((∃ e, MPMC_Queue.construct cap d0 = Except.error e) ↔ cap < 1) ∧
    ((∃ q, MPMC_Queue.construct cap d0 = Except.ok q) ↔ 1 ≤ cap) := by
  unfold MPMC_Queue.construct
  split
  · rename_i hlt
    refine ⟨⟨fun _ => hlt, fun _ => ⟨_, rfl⟩⟩, ?_, ?_⟩
    · rintro ⟨q, hq⟩
      cases hq
    · intro h1
      omega
  · rename_i hge
    refine ⟨⟨?_, ?_⟩, ?_, fun _ => ⟨_, rfl⟩⟩
    · rintro ⟨e, he⟩
      cases he
    · intro h1
      exact absurd h1 hge
    · intro _
      omega

/-- C4: single-slot saturation: on a capacity-1 queue the sequence
`try_push 1, size, try_push 2, try_pop, size, try_pop` yields
`true, 1, false, (true, 1), 0, false`. -/
theorem single_slot_saturation :
    MPMC_Queue.construct 1 (0 : Nat) = Except.ok q1nat ∧
    (q1nat.try_push 1).1 = true ∧
    (q1nat.try_push 1).2.size = 1 ∧
    ((q1nat.try_push 1).2.try_push 2).1 = false ∧
    (((q1nat.try_push 1).2.try_push 2).2.try_pop 0).1 = true ∧
    (((q1nat.try_push 1).2.try_push 2).2.try_pop 0).2.1 = 1 ∧
    (((q1nat.try_push 1).2.try_push 2).2.try_pop 0).2.2.size = 0 ∧
    ((((q1nat.try_push 1).2.try_push 2).2.try_pop 0).2.2.try_pop 0).1 = false :=
  ⟨rfl, by decide, by decide, by decide, by decide, by decide, by decide, by decide⟩


/-- C5: the retry structure of the `try_emplace` loop. Against any
sequence of observations of the shared atomics: the call returns `false`
exactly in an iteration whose slot generation differs from the expected
empty-phase value `head / capacity * 2` and whose re-read of `head_`
equals the previously observed value; a differing re-read retries the
loop with the new head; a matching generation attempts the CAS, and a
successful CAS publishes and returns `true` (in the sequential
specialisation this is exactly `try_emplace`). -/
theorem try_emplace_retry_loop (c head : Nat) (o : ProbeObs) (rest : List ProbeObs) :
    (head / c * 2 % W ≠ o.slotTurn → o.rereadHead = head →
        tryEmplaceLoop c head (o :: rest) = some false) ∧
    (head / c * 2 % W ≠ o.slotTurn → o.rereadHead ≠ head →
        tryEmplaceLoop c head (o :: rest) = tryEmplaceLoop c o.rereadHead rest) ∧
    (head / c * 2 % W = o.slotTurn → o.casFail = none →
        tryEmplaceLoop c head (o :: rest) = some true) ∧
    (head / c * 2 % W = o.slotTurn → ∀ h2, o.casFail = some h2 →
        tryEmplaceLoop c head (o :: rest) = tryEmplaceLoop c h2 rest) ∧
    (∀ (l : List ProbeObs) (h0 : Nat), tryEmplaceLoop c h0 l = some false →
        ∃ h2 o2, o2 ∈ l ∧ h2 / c * 2 % W ≠ o2.slotTurn ∧ o2.rereadHead = h2) ∧
    (∀ (q : MPMC_Queue Nat) (v : Nat),
        tryEmplaceLoop q.capacity q.head
          [{ slotTurn := (q.buffer.getD (q.head % q.capacity) { data := v, turn := 0 }).turn,
             casFail := none, rereadHead := q.head }]
          = some (q.try_emplace v).1) := by
  refine ⟨?_, ?_, ?_, ?_, ?_, ?_⟩
  · intro h1 h2
    simp only [tryEmplaceLoop]
    rw [if_neg h1, if_pos h2]
  · intro h1 h2
    simp only [tryEmplaceLoop]
    rw [if_neg h1, if_neg h2]
  · intro h1 h2
    simp only [tryEmplaceLoop]
    rw [if_pos h1, h2]
  · intro h1 h2 h3
    simp only [tryEmplaceLoop]
    rw [if_pos h1, h3]
  · intro l
    induction l with
    | nil =>
      intro h0 h
      simp [tryEmplaceLoop] at h
    | cons o2 rest2 ih =>
      intro h0 h
      simp only [tryEmplaceLoop] at h
      by_cases hc1 : h0 / c * 2 % W = o2.slotTurn
      · rw [if_pos hc1] at h
        cases hcf : o2.casFail with
        | none =>
          rw [hcf] at h
          simp at h
        | some h2 =>
          rw [hcf] at h
          obtain ⟨h3, o3, hmem, hx, hy⟩ := ih h2 h
          exact ⟨h3, o3, List.mem_cons_of_mem _ hmem, hx, hy⟩
      · rw [if_neg hc1] at h
        by_cases hr : o2.rereadHead = h0
        · exact ⟨h0, o2, List.mem_cons_self _ _, hc1, hr⟩
        · rw [if_neg hr] at h
          obtain ⟨h3, o3, hmem, hx, hy⟩ := ih _ h
          exact ⟨h3, o3, List.mem_cons_of_mem _ hmem, hx, hy⟩
  · intro q v
    simp only [tryEmplaceLoop, MPMC_Queue.try_emplace, MPMC_Queue.turn]
    split
    · rfl
    · simp

theorem try_emplace_retry_loop_witness :
    tryEmplaceLoop 1 0 [{ slotTurn := 1, casFail := none, rereadHead := 0 }] = some false :=
  (try_emplace_retry_loop 1 0 { slotTurn := 1, casFail := none, rereadHead := 0 } []).1
    (by decide) (by decide)

/-- Odd generations have bit 0 set even after the `size_t` wrap. -/
theorem and_one_of_odd (x : Nat) : ((x * 2 + 1) % W) &&& 1 ≠ 0 := by
  rw [Nat.and_one_is_mod, Nat.mod_mod_of_dvd _ (by norm_num : (2 : Nat) ∣ W)]
  omega

/-- Even generations have bit 0 clear even after the `size_t` wrap. -/
theorem and_one_of_even (x : Nat) : (x * 2 % W) &&& 1 = 0 := by
  rw [Nat.and_one_is_mod, Nat.mod_mod_of_dvd _ (by norm_num : (2 : Nat) ∣ W)]
  omega

/-- C7: at teardown of any reachable state, each slot runs its payload's
destructor at most once, and exactly once precisely when the slot holds
a produced-but-unconsumed value (a pending position of that slot):
no leak of a resident value and no double destruction of a consumed
slot. -/
theorem teardown_destroys_resident_once {α : Type} (d0 : α) (cap : Nat)
    (q0 : MPMC_Queue α) (hq : MPMC_Queue.construct cap d0 = Except.ok q0)
    (ops : List (QOp α)) (hlen : ops.length ≤ W) :
    ∀ i, i < (runTrace d0 q0 ops).queue.capacity →
      ((runTrace d0 q0 ops).queue.buffer.getD i { data := d0, turn := 0 }).dtorRuns ≤ 1 ∧
      (((runTrace d0 q0 ops).queue.buffer.getD i { data := d0, turn := 0 }).dtorRuns = 1 ↔
        ∃ p, (runTrace d0 q0 ops).popped.length ≤ p ∧
          p < (runTrace d0 q0 ops).pushed.length ∧
          p % (runTrace d0 q0 ops).queue.capacity = i) := by
  obtain ⟨hInv, -⟩ := run_from_construct hq ops hlen
  obtain ⟨hc, hcap, hbuf, hhead, htail, htle, hdiff, hslot⟩ := hInv
  intro i hi
  rw [hcap] at hi ⊢
  rcases hslot i hi with ⟨p, hp1, hp2, hp3, hpturn, hpdata⟩ | ⟨hnone, hbturn⟩
  · have h1 : ((runTrace d0 q0 ops).queue.buffer.getD i { data := d0, turn := 0 }).dtorRuns
        = 1 := by
      unfold Slot.dtorRuns
      rw [hpturn, if_pos (and_one_of_odd _)]
    rw [h1]
    exact ⟨Nat.le_refl 1, ⟨fun _ => ⟨p, hp1, hp2, hp3⟩, fun _ => rfl⟩⟩
  · have h0 : ((runTrace d0 q0 ops).queue.buffer.getD i { data := d0, turn := 0 }).dtorRuns
        = 0 := by
      unfold Slot.dtorRuns
      rw [hbturn]
      rw [if_neg (by simpa using and_one_of_even (nextp (runTrace d0 q0 ops).pushed.length
        q0.capacity i / q0.capacity))]
    rw [h0]
    refine ⟨by omega, ⟨fun h => absurd h (by decide), ?_⟩⟩
    rintro ⟨p, hq1, hq2, hq3⟩
    exact absurd hq3 (hnone p hq1 hq2)

theorem teardown_destroys_resident_once_witness :
    ((runTrace 0 q1nat [QOp.push 5]).queue.buffer.getD 0 { data := 0, turn := 0 }).dtorRuns ≤ 1 ∧
    (((runTrace 0 q1nat [QOp.push 5]).queue.buffer.getD 0 { data := 0, turn := 0 }).dtorRuns = 1 ↔
      ∃ p, (runTrace 0 q1nat [QOp.push 5]).popped.length ≤ p ∧
        p < (runTrace 0 q1nat [QOp.push 5]).pushed.length ∧
        p % (runTrace 0 q1nat [QOp.push 5]).queue.capacity = 0) :=
  teardown_destroys_resident_once 0 1 q1nat rfl [QOp.push 5] (by decide) 0 (by decide)

/-- C8: `capacity()` is the value fixed at construction — the requested
capacity, except that requesting the maximum `size_t` value stores that
maximum reduced by one — and no push or pop operation changes it. -/
theorem capacity_fixed {α : Type} (d0 : α) :
    (∀ (cap : Nat) (q : MPMC_Queue α), 1 ≤ cap → cap < MAX_SIZE_T →
        MPMC_Queue.construct cap d0 = Except.ok q → q.capacity = cap) ∧
    (∀ q : MPMC_Queue α, MPMC_Queue.construct MAX_SIZE_T d0 = Except.ok q →
        q.capacity = MAX_SIZE_T - 1) ∧
    (∀ (q : MPMC_Queue α) (v : α), (q.try_emplace v).2.capacity = q.capacity) ∧
    (∀ (q : MPMC_Queue α) (w : α), (q.try_pop w).2.2.capacity = q.capacity) ∧
    (∀ (q q2 : MPMC_Queue α) (v : α), q.emplace v = some q2 →
        q2.capacity = q.capacity) ∧
    (∀ (q q2 : MPMC_Queue α) (w v : α), q.pop w = some (v, q2) →
        q2.capacity = q.capacity) := by
  refine ⟨?_, ?_, ?_, ?_, ?_, ?_⟩
  · intro cap q h1 h2 hq
    have hne : ¬ cap = MAX_SIZE_T := by omega
    unfold MPMC_Queue.construct at hq
    rw [if_neg (by omega : ¬ cap < 1), if_neg hne] at hq
    simp only [Except.ok.injEq] at hq
    subst hq
    rfl
  · intro q hq
    unfold MPMC_Queue.construct at hq
    rw [if_neg (by decide : ¬ MAX_SIZE_T < 1), if_pos rfl] at hq
    simp only [Except.ok.injEq] at hq
    subst hq
    rfl
  · intro q v
    unfold MPMC_Queue.try_emplace
    split <;> rfl
  · intro q w
    unfold MPMC_Queue.try_pop
    split <;> rfl
  · intro q q2 v hq
    unfold MPMC_Queue.emplace at hq
    split at hq
    · simp only [Option.some.injEq] at hq
      subst hq
      rfl
    · cases hq
  · intro q q2 w v hq
    unfold MPMC_Queue.pop at hq
    split at hq
    · simp only [Option.some.injEq, Prod.mk.injEq] at hq
      obtain ⟨-, hq⟩ := hq
      subst hq
      rfl
    · cases hq

theorem capacity_fixed_witness : q1nat.capacity = 1 :=
  (capacity_fixed (0 : Nat)).1 1 q1nat (by decide) (by decide) rfl


/-- C9: slot extraction is pure: `return_value` only reads `data_`, and
in a successful `try_pop` the returned value is exactly the slot's
`return_value` while the only slot field modified by the whole operation
is the generation counter, advanced by the separate store after
extraction (the payload field is left in place). -/
theorem return_value_frame {α : Type} (q : MPMC_Queue α) (w : α) :
    (∀ s : Slot α, s.return_value = s.data) ∧
    ((q.try_pop w).1 = true →
      (q.try_pop w).2.1
        = (q.buffer.getD (q.tail % q.capacity) { data := w, turn := 0 }).return_value ∧
      (q.try_pop w).2.2.buffer
        = q.buffer.set (q.tail % q.capacity)
            { q.buffer.getD (q.tail % q.capacity) { data := w, turn := 0 } with
              turn := (q.turn q.tail * 2 + 2) % W }) := by
  refine ⟨fun s => rfl, ?_⟩
  unfold MPMC_Queue.try_pop
  split
  · intro _
    exact ⟨rfl, rfl⟩
  · intro hb
    exact absurd hb (by simp)

theorem return_value_frame_witness :
    (qFull1.try_pop 0).2.1
      = (qFull1.buffer.getD (qFull1.tail % qFull1.capacity) { data := 0, turn := 0 }).return_value ∧
    (qFull1.try_pop 0).2.2.buffer
      = qFull1.buffer.set (qFull1.tail % qFull1.capacity)
          { qFull1.buffer.getD (qFull1.tail % qFull1.capacity) { data := 0, turn := 0 } with
            turn := (qFull1.turn qFull1.tail * 2 + 2) % W } :=
  (return_value_frame qFull1 0).2 (by decide)

/-- C10: a failed `try_emplace` returns the queue state completely
unchanged, and a failed `try_pop` returns both the queue state and the
caller's output variable unchanged. -/
theorem failed_calls_leave_state_unchanged {α : Type} (q : MPMC_Queue α) (v w : α) :
    ((q.try_emplace v).1 = false → (q.try_emplace v).2 = q) ∧
    ((q.try_pop w).1 = false → (q.try_pop w).2.2 = q ∧ (q.try_pop w).2.1 = w) := by
  constructor
  · unfold MPMC_Queue.try_emplace
    split
    · intro hb
      exact absurd hb (by simp)
    · intro _
      rfl
  · unfold MPMC_Queue.try_pop
    split
    · intro hb
      exact absurd hb (by simp)
    · intro _
      exact ⟨rfl, rfl⟩

theorem failed_calls_leave_state_unchanged_witness :
    ((qFull1.try_emplace 9).2 = qFull1) ∧
    ((q1nat.try_pop 3).2.2 = q1nat ∧ (q1nat.try_pop 3).2.1 = 3) :=
  ⟨(failed_calls_leave_state_unchanged qFull1 9 3).1 (by decide),
   (failed_calls_leave_state_unchanged q1nat 9 3).2 (by decide)⟩

/-- C6 (refuted by the code): the state `qWrap` — reached from a
capacity-1 queue by `2 ^ 64 - 1` successful push/pop rounds and one more
successful push, so that the producer counter has wrapped — is in the
steady state with unsigned difference `head - tail = 1 ≤ capacity`, yet
`size()` returns `0` (the wraparound branch `maxToTail + head` is off by
one: the exact count is `maxToTail + head + 1`), and `empty()`
consequently reports an occupied queue as empty. -/
theorem size_wraparound_off_by_one :
    (runTrace 0 q1nat (altOps 7 (W - 1) ++ [QOp.push 7])).queue = qWrap ∧
    qWrap.unsignedDiff = 1 ∧
    qWrap.size = 0 ∧
    qWrap.empty = true :=
  ⟨qWrap_reachable, by decide, by decide, by decide⟩

end dro
